import Mathlib

/-!
Verification development for the docteur cold-start profiler.

The definitions below are a shallow embedding of the profiler's core:
the `ProfileCollector` (subtree-time computation, filtering, grouping),
the dependency-tree builder of the xray view, the provider lifecycle
phase subscriber of the loader, and the parent-process controller.

Conventions of the embedding:
* JavaScript numbers carrying milliseconds are modelled as `Int`
  (every property proved here is order- or ring-theoretic and holds for
  the reals as well as for the integers).
* A JavaScript `Map` built by repeated `set` is modelled as an
  association list in insertion order where `set` on an existing key
  overwrites in place and `get` returns the latest binding.
* In-place mutation of a record field is modelled by rebuilding the
  record with the field replaced.
* The recursive graph walks that the source guards with a mutable
  visited set are modelled with an explicit fuel parameter plus the
  threaded visited list; chosen fuel is one more than the number of
  records, which the theorems show is never exhausted on the inputs
  they speak about.
-/

namespace Docteur

/-- `ModuleTiming` from src/types.ts: one record per resolved module URL.
`execTime` appears in the reporter snapshot of the type (read by
`getEffectiveTime` in reporters/format.ts) and is optional. -/
structure ModuleTiming where
  specifier : String
  resolvedUrl : String
  loadTime : Int
  parentUrl : Option String := none
  subtreeTime : Option Int := none
  execTime : Option Int := none
deriving DecidableEq, Repr

/-- `ResolvedConfig` from src/types.ts (all defaults applied). -/
structure ResolvedConfig where
  topModules : Nat
  threshold : Int
  includeNodeModules : Bool
  groupByPackage : Bool
deriving DecidableEq, Repr

/-- JS `String.prototype.includes`: `s` contains `pat` as a substring.
Implemented through `splitOn`, which splits at every occurrence of the
(nonempty) pattern. -/
def includesStr (s pat : String) : Bool :=
  (s.splitOn pat).length != 1

/-- Module category from `ProfileCollector.#moduleCategory`. -/
inductive ModuleCategory
  | node
  | adonis
  | nodeModules
  | user
deriving DecidableEq, Repr

/-- `ProfileCollector.#moduleCategory` (collector.ts): classify a resolved
URL by literal prefix/substring tests. -/
def moduleCategory (url : String) : ModuleCategory :=
  if url.startsWith "node:" then .node
  else if includesStr url "node_modules/@adonisjs/" then .adonis
  else if includesStr url "node_modules/" then .nodeModules
  else .user

namespace ProfileCollector

/-- The JS `Map` built by `new Map(this.#modules.map((m) => [m.resolvedUrl, m]))`:
for a duplicated URL the later record wins. -/
def byUrl (ms : List ModuleTiming) (url : String) : Option ModuleTiming :=
  ms.foldl (fun acc m => if m.resolvedUrl = url then some m else acc) none

/-- The `children` map of `#populateSubtreeTimes`: for each module with a
`parentUrl` its URL is appended to the parent's child list, in list order. -/
def childrenOf (ms : List ModuleTiming) (url : String) : List String :=
  (ms.filter (fun m => m.parentUrl = some url)).map (fun m => m.resolvedUrl)

/-- The recursive `compute(url, seen)` closure of `#populateSubtreeTimes`,
with the mutable `Set` threaded through and an explicit fuel.  The source
is:
  if seen has url, return 0; add url to seen;
  look the module up; if absent return 0;
  total := loadTime; for each child: total += compute(child, seen);
  return total. -/
def computeF (ms : List ModuleTiming) : Nat → String → List String → Int × List String
  | 0, _, seen => (0, seen)
  | fuel + 1, url, seen =>
    if url ∈ seen then (0, seen)
    else
      match byUrl ms url with
      | none => (0, url :: seen)
      | some mod =>
        (childrenOf ms url).foldl
          (fun acc c =>
            let r := computeF ms fuel c acc.2
            (acc.1 + r.1, r.2))
          (mod.loadTime, url :: seen)

/-- `compute(m.resolvedUrl, new Set())` with the fuel sized to the record
count (sufficient, as the theorems below show). -/
def compute (ms : List ModuleTiming) (url : String) : Int :=
  (computeF ms (ms.length + 1) url []).1

/-- `ProfileCollector.#populateSubtreeTimes`: write
`m.subtreeTime = compute(m.resolvedUrl, new Set())` into every record.
`compute` never reads `subtreeTime`, so the in-place sequential writes of
the source equal this map. -/
def populateSubtreeTimes (ms : List ModuleTiming) : List ModuleTiming :=
  ms.map (fun m => { m with subtreeTime := some (compute ms m.resolvedUrl) })

/-- The module-list processing of the `ProfileCollector` constructor:
subtree times are computed only when the list is nonempty and the first
record has no `subtreeTime` yet. -/
def ctorModules (ms : List ModuleTiming) : List ModuleTiming :=
  match ms with
  | [] => []
  | m0 :: _ => if m0.subtreeTime = none then populateSubtreeTimes ms else ms

/-- `ProfileCollector.#time`: `m.subtreeTime ?? m.loadTime`. -/
def time (m : ModuleTiming) : Int :=
  m.subtreeTime.getD m.loadTime

/-- `ProfileCollector.#sumTime`. -/
def sumTime (ms : List ModuleTiming) : Int :=
  (ms.map time).sum

end ProfileCollector

/-- The stable JS `sort((a, b) => key(b) - key(a))`: a descending sort
by an integer key.  JS mandates a stable sort; for a comparator induced
by a total preorder every stable sort returns the same list, so a stable
insertion sort is an exact model. -/
def sortDesc (key : α → Int) (l : List α) : List α :=
  l.insertionSort (fun a b => key b ≤ key a)

/-- The list is weakly descending in the given key. -/
def SortedDescBy (key : α → Int) (l : List α) : Prop :=
  l.Pairwise (fun a b => key b ≤ key a)

instance (key : α → Int) (l : List α) : Decidable (SortedDescBy key l) :=
  inferInstanceAs (Decidable (l.Pairwise _))

theorem sortDesc_sorted (key : α → Int) (l : List α) : SortedDescBy key (sortDesc key l) := by
  haveI : IsTotal α (fun a b => key b ≤ key a) := ⟨fun a b => (le_total (key b) (key a)).imp id id⟩
  haveI : IsTrans α (fun a b => key b ≤ key a) :=
    ⟨fun _ _ _ h1 h2 => le_trans h2 h1⟩
  exact List.sorted_insertionSort _ l

namespace ProfileCollector

/-- `ProfileCollector.#sortByTime`: descending by `#time`. -/
def sortByTime (ms : List ModuleTiming) : List ModuleTiming :=
  sortDesc time ms

/-- The early-return body of the `filterModules` predicate. -/
def keepModule (config : ResolvedConfig) (m : ModuleTiming) : Bool :=
  if time m < config.threshold then false
  else if m.resolvedUrl.startsWith "node:" then false
  else if !config.includeNodeModules
      && (moduleCategory m.resolvedUrl == .nodeModules
          || moduleCategory m.resolvedUrl == .adonis) then false
  else true

/-- `ProfileCollector.filterModules`. -/
def filterModules (config : ResolvedConfig) (ms : List ModuleTiming) : List ModuleTiming :=
  ms.filter (keepModule config)

end ProfileCollector

/-- The literal `node_modules/` that the package-name regular expression
searches for. -/
def pkgMarker : List Char := "node_modules/".toList

/-- One attempt of the regular expression
`node_modules\/(@[^\/]+\/[^\/]+|[^\/]+)` at a fixed start position:
the literal marker, then the first alternative (a scoped two-segment
name) and, failing that, the single-segment alternative.  The character
runs are maximal, so no backtracking inside a run is possible. -/
def tryPkgAt (cs : List Char) : Option String :=
  if pkgMarker.isPrefixOf cs then
    let rest := cs.drop pkgMarker.length
    let s1 := rest.takeWhile (fun c => c ≠ '/')
    if s1.isEmpty then none
    else if s1.head? = some '@' ∧ 2 ≤ s1.length then
      match rest.drop s1.length with
      | '/' :: rest2 =>
        let s2 := rest2.takeWhile (fun c => c ≠ '/')
        if s2.isEmpty then some (String.mk s1)
        else some (String.mk (s1 ++ '/' :: s2))
      | _ => some (String.mk s1)
    else some (String.mk s1)
  else none

/-- `url.match(regex)`: try the pattern at every start position from the
left; the first position where it matches wins. -/
def pkgScan : List Char → Option String
  | [] => none
  | c :: cs =>
    match tryPkgAt (c :: cs) with
    | some r => some r
    | none => pkgScan cs

/-- `ProfileCollector.#packageName`: the regex capture, or `app` when the
URL has no `node_modules/` marker (`match?.[1] || 'app'`; the capture is
never the empty string). -/
def packageName (url : String) : String :=
  (pkgScan url.toList).getD "app"

/-- Keys in order of first appearance, skipping keys already seen. -/
def dedupFirstAux : List String → List String → List String
  | [], _ => []
  | k :: ks, seen =>
    if k ∈ seen then dedupFirstAux ks seen else k :: dedupFirstAux ks (k :: seen)

/-- Key list in order of first appearance, as produced by
`Object.groupBy` followed by `Object.entries` (string keys keep
insertion order). -/
def dedupFirst (l : List String) : List String :=
  dedupFirstAux l []

/-- `PackageGroup` from collector.ts. -/
structure PackageGroup where
  name : String
  totalTime : Int
  modules : List ModuleTiming
deriving DecidableEq, Repr

namespace ProfileCollector

/-- `ProfileCollector.groupModulesByPackage`: group by package name
(first-appearance key order), aggregate, then sort groups by descending
`totalTime`. -/
def groupModulesByPackage (ms : List ModuleTiming) : List PackageGroup :=
  sortDesc (fun g => g.totalTime)
    ((dedupFirst (ms.map (fun m => packageName m.resolvedUrl))).map (fun k =>
      let mods := ms.filter (fun m => packageName m.resolvedUrl = k)
      { name := k, totalTime := sumTime mods, modules := sortByTime mods }))

end ProfileCollector

/-- `getEffectiveTime` from reporters/format.ts:
`module.execTime ?? module.loadTime`. -/
def getEffectiveTime (m : ModuleTiming) : Int :=
  m.execTime.getD m.loadTime

/-- `simplifyUrl` from reporters/format.ts: strip the `file://` protocol,
cut everything up to and including the first `node_modules/`, otherwise
make the path relative to `cwd`. -/
def simplifyUrl (url cwd : String) : String :=
  let w := if url.startsWith "file://" then url.drop 7 else url
  let parts := w.splitOn "node_modules/"
  if parts.length != 1 then w.drop ((parts.headD "").length + 13)
  else if w.startsWith cwd then "." ++ w.drop cwd.length
  else w

/-- `ModuleNode` from xray/tree.ts.  The source stores object references
for `children` and `parent`; nodes here are keyed by their (unique in the
node map) `resolvedUrl`, so both are stored as URLs. -/
structure ModuleNode where
  timing : ModuleTiming
  displayName : String
  children : List String
  parent : Option String := none
  depth : Nat := 0
deriving DecidableEq, Repr

/-- The `nodeMap` of `buildDependencyTree`, a JS `Map` in insertion
order. -/
abbrev NodeMap := List (String × ModuleNode)

/-- `nodeMap.get` (keys are unique by construction). -/
def mapGet : NodeMap → String → Option ModuleNode
  | [], _ => none
  | p :: ps, k => if p.1 = k then some p.2 else mapGet ps k

/-- `nodeMap.set`: overwrite in place when the key exists, else append. -/
def mapSet : NodeMap → String → ModuleNode → NodeMap
  | [], k, v => [(k, v)]
  | p :: ps, k, v => if p.1 = k then (k, v) :: ps else p :: mapSet ps k v

/-- The fresh node pass 1 creates for one record. -/
def buildNode (cwd : String) (t : ModuleTiming) : ModuleNode :=
  { timing := t, displayName := simplifyUrl t.resolvedUrl cwd, children := [] }

/-- Pass 1 of `buildDependencyTree`: one node per record, no edges. -/
def buildNodes (ms : List ModuleTiming) (cwd : String) : NodeMap :=
  ms.foldl (fun nm t => mapSet nm t.resolvedUrl (buildNode cwd t)) []

/-- One iteration of pass 2 for the node keyed `url`: when its
`parentUrl` matches a key of the map, append it to that parent's child
list and set its own back-reference.  The second lookup of `url` mirrors
the source mutating one shared object when a node is its own parent. -/
def linkStep (nm : NodeMap) (url : String) : NodeMap :=
  match mapGet nm url with
  | none => nm
  | some node =>
    match node.timing.parentUrl with
    | none => nm
    | some p =>
      match mapGet nm p with
      | none => nm
      | some parentNode =>
        let nm2 := mapSet nm p { parentNode with children := parentNode.children ++ [url] }
        match mapGet nm2 url with
        | none => nm2
        | some node2 => mapSet nm2 url { node2 with parent := some p }

/-- Pass 2 of `buildDependencyTree`: the `for (const node of
nodeMap.values())` linking loop, iterating keys in map order (only
values are ever mutated, so the live JS iteration visits exactly these
keys). -/
def linkParents (nm0 : NodeMap) : NodeMap :=
  (nm0.map (fun p => p.1)).foldl linkStep nm0

/-- `setDepths(node, depth, seen)` from xray/tree.ts, with the visited
set threaded and an explicit fuel: skip a visited node, otherwise record
the depth and walk the `for (const child of node.children)` loop one
level deeper.  `none` means the fuel ran out, which the development
shows cannot happen at the fuel `buildDependencyTree` supplies. -/
def setDepthsF : Nat → String → Nat → NodeMap × List String → Option (NodeMap × List String)
  | 0, _, _, _ => none
  | fuel + 1, url, depth, st =>
    if url ∈ st.2 then some st
    else
      match mapGet st.1 url with
      | none => some st
      | some node =>
        node.children.foldl
          (fun acc c =>
            match acc with
            | none => none
            | some st2 => setDepthsF fuel c (depth + 1) st2)
          (some (mapSet st.1 url { node with depth := depth }, url :: st.2))

/-- `DependencyTree` from xray/tree.ts; `roots` holds the root nodes by
URL. -/
structure DependencyTree where
  nodeMap : NodeMap
  roots : List String
  sortedByTime : List ModuleNode
deriving DecidableEq, Repr, Inhabited

/-- The effective time of the node a child URL refers to, the sort key
of pass 4 (`time(b) - time(a)` over `getEffectiveTime(node.timing)`). -/
def childTime (nm : NodeMap) (c : String) : Int :=
  (mapGet nm c).elim 0 (fun n => getEffectiveTime n.timing)

/-- Pass 4 applied to one node: sort its child list by descending
effective time, looked up in the node map (timings are never modified
after pass 1, so the lookup sees the child's timing unchanged). -/
def sortChildren (nm : NodeMap) (n : ModuleNode) : ModuleNode :=
  { n with children := sortDesc (childTime nm) n.children }

/-- The roots found by pass 3: nodes without a parent back-reference, in
map order (depth assignment never touches `parent`, so the filter over
the linked map equals the source's interleaved loop). -/
def rootUrls (nm : NodeMap) : List String :=
  (nm.filter (fun p => p.2.parent.isNone)).map (fun p => p.1)

/-- `buildDependencyTree(modules, cwd)`: create nodes, link parents,
collect roots and assign depths (fresh visited set per root), sort every
child list and the global node list by descending effective time. -/
def buildDependencyTree (ms : List ModuleTiming) (cwd : String) : Option DependencyTree :=
  let nm1 := linkParents (buildNodes ms cwd)
  let roots := rootUrls nm1
  let fuel := nm1.length + 1
  match roots.foldl
      (fun acc r =>
        match acc with
        | none => none
        | some nm => (setDepthsF fuel r 0 (nm, [])).map (fun st => st.1))
      (some nm1) with
  | none => none
  | some nm2 =>
    let nm3 := nm2.map (fun p => (p.1, sortChildren nm2 p.2))
    some
      { nodeMap := nm3
        roots := roots
        sortedByTime := sortDesc (fun n => getEffectiveTime n.timing) (nm3.map (fun p => p.2)) }

section AssocList

variable {κ : Type} {ν : Type} [DecidableEq κ]

/-- JS `Map.set` on an association list (keys are unique by
construction): overwrite the entry in place or append a new one. -/
def alSet : List (κ × ν) → κ → ν → List (κ × ν)
  | [], k, v => [(k, v)]
  | p :: ps, k, v => if p.1 = k then (k, v) :: ps else p :: alSet ps k v

/-- JS `Map.get`. -/
def alGet : List (κ × ν) → κ → Option ν
  | [], _ => none
  | p :: ps, k => if p.1 = k then some p.2 else alGet ps k

/-- JS `Map.delete`. -/
def alErase (l : List (κ × ν)) (k : κ) : List (κ × ν) :=
  l.filter (fun p => decide (p.1 ≠ k))

end AssocList

/-- JS `Set.add` on a list kept duplicate-free. -/
def setAdd (s : List String) (k : String) : List String :=
  if k ∈ s then s else s ++ [k]

/-- JS `Set.delete`. -/
def setErase (s : List String) (k : String) : List String :=
  s.filter (fun x => x ≠ k)

/-- The loader's provider-phase bookkeeping (loader.ts): the
`providerStarts` map keyed by the literal `name:phase` string, the
`asyncCalls` set of the same keys, and the committed durations.  The
source keeps the durations as a nested map `name → phase → ms` whose
entries are read and written one `(name, phase)` pair at a time, modelled
here as a map keyed by the pair. -/
structure PhaseState where
  providerStarts : List (String × Int) := []
  asyncCalls : List String := []
  providerPhases : List ((String × String) × Int) := []
deriving DecidableEq, Repr

/-- `${name}:${phase}`. -/
def phaseKey (name phase : String) : String :=
  name ++ ":" ++ phase

/-- The handler invocations of `subscribePhase`.  The `end` handler
captures `performance.now()` immediately and defers its body by
`setTimeout(0)`; `endCheck` is that deferred body with the captured end
time, placed in the event sequence at the tick it runs. -/
inductive PhaseEvent
  | start (name phase : String) (now : Int)
  | endCheck (name phase : String) (endTime : Int)
  | asyncStart (name phase : String)
  | asyncEnd (name phase : String) (now : Int)

/-- One handler invocation of `subscribePhase`. -/
def phaseStep (st : PhaseState) : PhaseEvent → PhaseState
  | .start name phase now =>
    { st with providerStarts := alSet st.providerStarts (phaseKey name phase) now }
  | .endCheck name phase endTime =>
    if phaseKey name phase ∈ st.asyncCalls then st
    else
      match alGet st.providerStarts (phaseKey name phase) with
      | none => st
      | some startTime =>
        { st with
            providerPhases := alSet st.providerPhases (name, phase) (endTime - startTime)
            providerStarts := alErase st.providerStarts (phaseKey name phase) }
  | .asyncStart name phase =>
    { st with asyncCalls := setAdd st.asyncCalls (phaseKey name phase) }
  | .asyncEnd name phase now =>
    let st2 :=
      match alGet st.providerStarts (phaseKey name phase) with
      | none => st
      | some startTime =>
        { st with
            providerPhases := alSet st.providerPhases (name, phase) (now - startTime)
            providerStarts := alErase st.providerStarts (phaseKey name phase) }
    { st2 with asyncCalls := setErase st2.asyncCalls (phaseKey name phase) }

/-- Run a sequence of handler invocations from the loader's initial
(empty) state. -/
def runPhase (evs : List PhaseEvent) : PhaseState :=
  evs.foldl phaseStep {}

/-- The payload of a `results` message (profiler.ts `ResultsData`),
with the JS records as association lists. -/
structure ResultsData where
  loadTimes : List (String × Int)
  parents : List (String × String)
  providerPhases : List (String × List (String × Int))
deriving DecidableEq, Repr

/-- The data a resolved `runProfiledProcess` promise delivers (the
fields of `ProfilerState` other than the `done` flag). -/
structure DeliveredState where
  loadTimes : List (String × Int)
  parents : List (String × String)
  providerPhases : List (String × List (String × Int))
  bootDuration : Option (Int × Int)
deriving DecidableEq, Repr

/-- The parent-process controller state of `runProfiledProcess`
(profiler.ts): the collected `ProfilerState` plus the promise plumbing —
whether the one-shot `exit` listener registered by `complete` is armed,
how many times the promise has been resolved, and with what. -/
structure CtrlState where
  loadTimes : List (String × Int) := []
  parents : List (String × String) := []
  providerPhases : List (String × List (String × Int)) := []
  bootDuration : Option (Int × Int) := none
  done : Bool := false
  exitArmed : Bool := false
  resolvedCount : Nat := 0
  resolvedValue : Option DeliveredState := none
deriving DecidableEq, Repr

/-- The events the controller reacts to.  Timeout, stream forwarding and
the kill signals are side effects outside this model. -/
inductive CtrlEvent
  | results (d : ResultsData)
  | adonisReady (dur : Int × Int)
  | otherMessage
  | childExit

/-- `complete()` from `runProfiledProcess`: a no-op once `done` is set,
else it marks completion and registers the one-shot `exit` listener that
will resolve the promise with the state object. -/
def complete (st : CtrlState) : CtrlState :=
  if st.done then st else { st with done := true, exitArmed := true }

/-- The delivered snapshot of the mutable state object at resolution
time. -/
def deliver (st : CtrlState) : DeliveredState :=
  { loadTimes := st.loadTimes
    parents := st.parents
    providerPhases := st.providerPhases
    bootDuration := st.bootDuration }

/-- One controller event: the `message` handler of `runProfiledProcess`
(which overwrites the collected maps on every `results` message before
calling `complete`) and the child `exit` event firing the armed one-shot
resolver. -/
def ctrlStep (st : CtrlState) : CtrlEvent → CtrlState
  | .results d =>
    complete
      { st with
          loadTimes := d.loadTimes
          parents := d.parents
          providerPhases := d.providerPhases }
  | .adonisReady dur => { st with bootDuration := some dur }
  | .otherMessage => st
  | .childExit =>
    if st.exitArmed then
      { st with
          exitArmed := false
          resolvedCount := st.resolvedCount + 1
          resolvedValue := some (deliver st) }
    else st

/-- Run the controller from its initial state. -/
def runCtrl (evs : List CtrlEvent) : CtrlState :=
  evs.foldl ctrlStep {}

/-- `ProfileOptions` from profiler.ts. -/
structure ProfileOptions where
  entryPoint : Option String := none
  suppressOutput : Bool := false

/-- `this.entry || 'bin/server.ts'`: JS `||` falls through on the empty
string as well as on an absent value. -/
def entryOrDefault : Option String → String
  | none => "bin/server.ts"
  | some e => if e = "" then "bin/server.ts" else e

/-- `join(cwd, entry)`; the claim only needs the joined path as an
identifier, so no Node-style normalization is modelled. -/
def joinPath (cwd p : String) : String :=
  cwd ++ "/" ++ p

/-- `findEntryPoint(cwd, entry)` from profiler.ts, with the filesystem
abstracted to the predicate `fs`: throw `Entry point not found` when the
entry file does not exist. -/
def findEntryPoint (fs : String → Bool) (cwd : String) (entry : Option String) :
    Except String String :=
  let entryPath := joinPath cwd (entryOrDefault entry)
  if fs entryPath then .ok entryPath else .error ("Entry point not found: " ++ entryPath)

/-- The point `profile` reaches when validation passes: the `fork` call
of `runProfiledProcess` with the validated entry point.  Everything past
the spawn is outside this model. -/
inductive ProfileStep
  | spawned (entryPoint : String)
deriving DecidableEq, Repr

/-- `profile(cwd, options)` up to its first side effect: resolve the
loader path, validate the entry point — failing with the
entry-point-not-found error before anything is spawned — and only then
hand over to `runProfiledProcess`, which forks the child. -/
def profileModel (fs : String → Bool) (cwd : String) (options : ProfileOptions) :
    Except String ProfileStep :=
  match findEntryPoint fs cwd options.entryPoint with
  | .error e => .error e
  | .ok entryPoint => .ok (.spawned entryPoint)

/-! ### Concrete fixtures used by witness and example statements -/

/-- Chain fixture a → b → c with load times 10/20/30 (tests/profiler.spec.ts). -/
def chainA : ModuleTiming :=
  { specifier := "a.ts", resolvedUrl := "file:///app/a.ts", loadTime := 10 }

def chainB : ModuleTiming :=
  { specifier := "b.ts", resolvedUrl := "file:///app/b.ts", loadTime := 20,
    parentUrl := some "file:///app/a.ts" }

def chainC : ModuleTiming :=
  { specifier := "c.ts", resolvedUrl := "file:///app/c.ts", loadTime := 30,
    parentUrl := some "file:///app/b.ts" }

/-- Two-node mutual cycle fixture (tests/tree.spec.ts). -/
def cycleA (t : Int) : ModuleTiming :=
  { specifier := "a.ts", resolvedUrl := "file:///app/a.ts", loadTime := t,
    parentUrl := some "file:///app/b.ts" }

def cycleB (t : Int) : ModuleTiming :=
  { specifier := "b.ts", resolvedUrl := "file:///app/b.ts", loadTime := t,
    parentUrl := some "file:///app/a.ts" }

/-- Package grouping fixtures (tests/profiler.spec.ts). -/
def lodashA : ModuleTiming :=
  { specifier := "a.js", resolvedUrl := "file:///app/node_modules/lodash/a.js", loadTime := 10 }

def lodashB : ModuleTiming :=
  { specifier := "b.js", resolvedUrl := "file:///app/node_modules/lodash/b.js", loadTime := 8 }

def scopedX : ModuleTiming :=
  { specifier := "x.js", resolvedUrl := "file:///app/node_modules/@scope/name/x.js",
    loadTime := 5 }

def appSvc : ModuleTiming :=
  { specifier := "service.ts", resolvedUrl := "file:///app/src/service.ts", loadTime := 15 }

/-- A profiled module list after subtree computation: parent `p` with
children `x` (slow subtree through grandchild `g`, small self time) and
`y` (larger self time, small subtree). -/
def subP : ModuleTiming :=
  { specifier := "p.ts", resolvedUrl := "file:///app/p.ts", loadTime := 1,
    subtreeTime := some 116 }

def subX : ModuleTiming :=
  { specifier := "x.ts", resolvedUrl := "file:///app/x.ts", loadTime := 5,
    parentUrl := some "file:///app/p.ts", subtreeTime := some 105 }

def subY : ModuleTiming :=
  { specifier := "y.ts", resolvedUrl := "file:///app/y.ts", loadTime := 10,
    parentUrl := some "file:///app/p.ts", subtreeTime := some 10 }

def subG : ModuleTiming :=
  { specifier := "g.ts", resolvedUrl := "file:///app/g.ts", loadTime := 100,
    parentUrl := some "file:///app/x.ts", subtreeTime := some 100 }

/-- Two distinct `results` payloads for the duplicate-message scenario. -/
def dupData1 : ResultsData :=
  { loadTimes := [("file:///app/a.ts", 1)], parents := [], providerPhases := [] }

def dupData2 : ResultsData :=
  { loadTimes := [("file:///app/a.ts", 2)], parents := [], providerPhases := [] }

/-! ### Claims -/

/-- Claim C5: `filterModules` returns exactly the modules whose
effective time (`subtreeTime` if present, else `loadTime`) is at least
the threshold, always excluding URLs with the runtime `node:` prefix,
and excluding the third-party (`node_modules`) and framework (`adonis`)
categories exactly when `includeNodeModules` is false. -/
theorem filterModules_exact (config : ResolvedConfig) (ms : List ModuleTiming) :
    ProfileCollector.filterModules config ms =
      ms.filter (fun m =>
        decide (config.threshold ≤ m.subtreeTime.getD m.loadTime)
        && !m.resolvedUrl.startsWith "node:"
        && (config.includeNodeModules
            || (!(moduleCategory m.resolvedUrl == .nodeModules)
                && !(moduleCategory m.resolvedUrl == .adonis)))) := by
  unfold ProfileCollector.filterModules
  apply List.filter_congr
  intro m _
  simp only [ProfileCollector.keepModule, ProfileCollector.time]
  by_cases h1 : m.subtreeTime.getD m.loadTime < config.threshold
  · simp [h1, not_le.2 h1]
  · have h1' : config.threshold ≤ m.subtreeTime.getD m.loadTime := not_lt.1 h1
    by_cases h2 : m.resolvedUrl.startsWith "node:"
    · simp [h1, h2]
    · by_cases h3 : config.includeNodeModules
      · simp [h1, h2, h3, h1']
      · cases hcat : moduleCategory m.resolvedUrl <;> simp [h1, h2, h3, h1', hcat]

/-- Claim C9: when the configured entry file (default `bin/server.ts`)
does not exist, `profile` fails with the entry-point-not-found error
before reaching the spawn. -/
theorem profile_missing_entry (fs : String → Bool) (cwd : String) (opts : ProfileOptions)
    (h : fs (joinPath cwd (entryOrDefault opts.entryPoint)) = false) :
    profileModel fs cwd opts =
      .error ("Entry point not found: " ++ joinPath cwd (entryOrDefault opts.entryPoint)) := by
  unfold profileModel findEntryPoint
  simp [h]

/-- Witness for C9 at an empty filesystem with the default entry point. -/
theorem profile_missing_entry_witness :
    profileModel (fun _ => false) "/proj" {} =
      .error ("Entry point not found: " ++ joinPath "/proj" (entryOrDefault none)) :=
  profile_missing_entry (fun _ => false) "/proj" {} rfl

/-- Claim C10: the collector constructor leaves the module list exactly
as passed when the first record already carries a `subtreeTime`;
only when the first record's `subtreeTime` is absent does it run the
subtree computation; and in every case each record keeps every field
other than `subtreeTime` unchanged. -/
theorem ctorModules_spec :
    (∀ (m0 : ModuleTiming) (rest : List ModuleTiming) (s : Int),
        m0.subtreeTime = some s → ProfileCollector.ctorModules (m0 :: rest) = m0 :: rest)
    ∧ (∀ (m0 : ModuleTiming) (rest : List ModuleTiming),
        m0.subtreeTime = none →
          ProfileCollector.ctorModules (m0 :: rest) =
            ProfileCollector.populateSubtreeTimes (m0 :: rest))
    ∧ (∀ ms : List ModuleTiming,
        List.Forall₂
          (fun a b => b.specifier = a.specifier ∧ b.resolvedUrl = a.resolvedUrl ∧
            b.loadTime = a.loadTime ∧ b.parentUrl = a.parentUrl ∧ b.execTime = a.execTime)
          ms (ProfileCollector.ctorModules ms)) := by
  have hsame : ∀ ms : List ModuleTiming,
      List.Forall₂
        (fun a b => b.specifier = a.specifier ∧ b.resolvedUrl = a.resolvedUrl ∧
          b.loadTime = a.loadTime ∧ b.parentUrl = a.parentUrl ∧ b.execTime = a.execTime)
        ms (ProfileCollector.populateSubtreeTimes ms) := by
    intro ms
    unfold ProfileCollector.populateSubtreeTimes
    rw [List.forall₂_map_right_iff, List.forall₂_same]
    intro a _
    exact ⟨rfl, rfl, rfl, rfl, rfl⟩
  refine ⟨?_, ?_, ?_⟩
  · intro m0 rest s h
    simp [ProfileCollector.ctorModules, h]
  · intro m0 rest h
    simp [ProfileCollector.ctorModules, h]
  · intro ms
    cases ms with
    | nil => exact List.Forall₂.nil
    | cons m0 rest =>
      by_cases h : m0.subtreeTime = none
      · have he : ProfileCollector.ctorModules (m0 :: rest) =
            ProfileCollector.populateSubtreeTimes (m0 :: rest) := by
          simp [ProfileCollector.ctorModules, h]
        rw [he]
        exact hsame _
      · have he : ProfileCollector.ctorModules (m0 :: rest) = m0 :: rest := by
          simp [ProfileCollector.ctorModules, h]
        rw [he, List.forall₂_same]
        intro a _
        exact ⟨rfl, rfl, rfl, rfl, rfl⟩

/-- Witness for C10 on a filtered view whose records already carry
subtree times. -/
theorem ctorModules_spec_witness :
    ProfileCollector.ctorModules [subP, subX] = [subP, subX] :=
  ctorModules_spec.1 subP [subX] 116 rfl

set_option maxHeartbeats 2000000 in
/-- Claim C4: on the two-node mutual cycle the tree builder terminates
(it returns a tree instead of exhausting its recursion bound) and both
nodes carry a finite numeric depth. -/
theorem cycle_tree_depths (t1 t2 : Int) :
    ∃ tr, buildDependencyTree [cycleA t1, cycleB t2] "/app" = some tr
      ∧ (mapGet tr.nodeMap "file:///app/a.ts").map (fun n => n.depth) = some 0
      ∧ (mapGet tr.nodeMap "file:///app/b.ts").map (fun n => n.depth) = some 0 :=
  ⟨_, rfl, rfl, rfl⟩

/-- Claim C7: grouping by package puts the two `node_modules/lodash`
modules into exactly one `lodash` group whose `totalTime` is the sum of
their times, keeps the two-segment `@scope/name` form for the scoped
module, and puts the module without a `node_modules` marker into the
synthetic `app` group. -/
theorem groupByPackage_example :
    (ProfileCollector.groupModulesByPackage [lodashA, lodashB, scopedX, appSvc]).filter
        (fun g => g.name == "lodash") =
      [{ name := "lodash", totalTime := lodashA.loadTime + lodashB.loadTime,
         modules := [lodashA, lodashB] }]
    ∧ (ProfileCollector.groupModulesByPackage [lodashA, lodashB, scopedX, appSvc]).filter
        (fun g => g.name == "@scope/name") =
      [{ name := "@scope/name", totalTime := scopedX.loadTime, modules := [scopedX] }]
    ∧ (ProfileCollector.groupModulesByPackage [lodashA, lodashB, scopedX, appSvc]).filter
        (fun g => g.name == "app") =
      [{ name := "app", totalTime := appSvc.loadTime, modules := [appSvc] }] := by
  refine ⟨?_, ?_, ?_⟩ <;> decide

/-- Claim C2: for any `(plugin, phase)` key, a `start` at `t0` followed
by an `end` whose deferred check runs with no `asyncStart` before it
commits `t1 - t0`; when an `asyncStart` precedes the deferred check the
`end` handler commits nothing, and the `asyncEnd` at `t3` commits
`t3 - t0` against the original start. -/
theorem subscribePhase_durations (name phase : String) (t0 t1 t3 : Int) :
    alGet (runPhase [.start name phase t0, .endCheck name phase t1]).providerPhases
        (name, phase) = some (t1 - t0)
    ∧ alGet (runPhase [.start name phase t0, .asyncStart name phase,
        .endCheck name phase t1]).providerPhases (name, phase) = none
    ∧ alGet (runPhase [.start name phase t0, .asyncStart name phase,
        .endCheck name phase t1, .asyncEnd name phase t3]).providerPhases
        (name, phase) = some (t3 - t0) := by
  refine ⟨?_, ?_, ?_⟩ <;>
    simp [runPhase, phaseStep, phaseKey, alSet, alGet, alErase, setAdd, setErase]

theorem mapGet_mapVals (f : ModuleNode → ModuleNode) (nm : NodeMap) (k : String) :
    mapGet (nm.map (fun p => (p.1, f p.2))) k = (mapGet nm k).map f := by
  induction nm with
  | nil => rfl
  | cons p ps ih =>
    by_cases h : p.1 = k
    · simp [mapGet, h]
    · simp [mapGet, h, ih]

theorem SortedDescBy_congr {α} {k1 k2 : α → Int} (h : ∀ x, k1 x = k2 x) {l : List α}
    (hs : SortedDescBy k1 l) : SortedDescBy k2 l := by
  have he : k1 = k2 := funext h
  rwa [he] at hs

/-- Claim C3 counterexample: on a profiled list whose records carry
subtree times, the built tree's children lists are not sorted by the
key the claim states (`subtreeTime` when present, else `loadTime`):
node `p` keeps child `y` (subtree 10) before child `x` (subtree 105)
because the code sorts by `execTime ?? loadTime`. -/
theorem children_sort_subtree_cex :
    ((buildDependencyTree [subP, subX, subY, subG] "/app").map (fun tr =>
      decide (tr.nodeMap.Forall (fun p =>
        SortedDescBy
          (fun c => (mapGet tr.nodeMap c).elim 0
            (fun n => n.timing.subtreeTime.getD n.timing.loadTime))
          p.2.children)))) = some false := by
  decide

/-- Claim C3 amended: in the returned tree every node's children list
and the global `sortedByTime` list are sorted in descending order of
effective time, where effective time is the node's `execTime` when
present and its `loadTime` (self time) otherwise — subtree time plays
no role in this ordering. -/
theorem children_sorted_by_effective_time (ms : List ModuleTiming) (cwd : String)
    (tr : DependencyTree) (h : buildDependencyTree ms cwd = some tr) :
    tr.nodeMap.Forall (fun p =>
      SortedDescBy (fun c => (mapGet tr.nodeMap c).elim 0 (fun n => getEffectiveTime n.timing))
        p.2.children)
    ∧ SortedDescBy (fun n => getEffectiveTime n.timing) tr.sortedByTime := by
  simp only [buildDependencyTree] at h
  split at h
  · exact absurd h (by simp)
  · rename_i nm2 hm
    injection h with h
    subst h
    constructor
    · rw [List.forall_iff_forall_mem]
      intro q hq
      rw [List.mem_map] at hq
      obtain ⟨p, hp, rfl⟩ := hq
      show SortedDescBy _ (sortDesc (childTime nm2) p.2.children)
      refine SortedDescBy_congr (fun c => ?_) (sortDesc_sorted _ p.2.children)
      show childTime nm2 c = _
      unfold childTime
      rw [mapGet_mapVals]
      cases mapGet nm2 c <;> rfl
    · exact sortDesc_sorted _ _

/-- The tree built from the one-module list `[appSvc]`. -/
def appSvcNode : ModuleNode :=
  { timing := appSvc, displayName := simplifyUrl "file:///app/src/service.ts" "/app",
    children := [] }

def appSvcTree : DependencyTree :=
  { nodeMap := [("file:///app/src/service.ts", appSvcNode)],
    roots := ["file:///app/src/service.ts"],
    sortedByTime := [appSvcNode] }

/-- Witness for the amended C3 on a concrete one-module build. -/
theorem children_sorted_by_effective_time_witness :
    (appSvcTree.nodeMap.Forall (fun p =>
      SortedDescBy
        (fun c => (mapGet appSvcTree.nodeMap c).elim 0 (fun n => getEffectiveTime n.timing))
        p.2.children))
    ∧ SortedDescBy (fun n => getEffectiveTime n.timing) appSvcTree.sortedByTime :=
  children_sorted_by_effective_time [appSvc] "/app" appSvcTree rfl

/-- Claim C8 counterexample: a duplicate `results` message that arrives
after completion but before the child exits changes the state the
promise later resolves with, so the delivered state is not unaffected
by duplicates. -/
theorem ctrl_duplicate_results_cex :
    (runCtrl [.results dupData1, .results dupData2, .childExit]).resolvedValue ≠
      (runCtrl [.results dupData1, .childExit]).resolvedValue := by
  decide

/-- Claim C8 amended: after the first `results` message completes the
run, later `results` messages never cause a second completion or
resolution — over any event sequence the promise is resolved at most
once. -/
theorem ctrl_resolution_at_most_once (evs : List CtrlEvent) :
    (runCtrl evs).resolvedCount ≤ 1 := by
  have inv : ∀ st : CtrlState,
      st.resolvedCount + (if st.exitArmed then 1 else 0) ≤ (if st.done then 1 else 0) →
      ∀ ev, (ctrlStep st ev).resolvedCount + (if (ctrlStep st ev).exitArmed then 1 else 0) ≤
        (if (ctrlStep st ev).done then 1 else 0) := by
    intro st h ev
    cases ev with
    | results d =>
      simp only [ctrlStep, complete]
      by_cases hd : st.done
      · simp [hd] at h ⊢
        exact h
      · simp [hd] at h ⊢
        exact h.1
    | adonisReady dur => simpa using h
    | otherMessage => simpa using h
    | childExit =>
      simp only [ctrlStep]
      by_cases ha : st.exitArmed
      · simp [ha] at h ⊢
        split at h <;> split <;> omega
      · simpa [ha] using h
  have run : ∀ (evs : List CtrlEvent) (st : CtrlState),
      st.resolvedCount + (if st.exitArmed then 1 else 0) ≤ (if st.done then 1 else 0) →
      (evs.foldl ctrlStep st).resolvedCount +
          (if (evs.foldl ctrlStep st).exitArmed then 1 else 0) ≤
        (if (evs.foldl ctrlStep st).done then 1 else 0) := by
    intro evs
    induction evs with
    | nil => intro st h; simpa using h
    | cons e rest ih =>
      intro st h
      exact ih _ (inv st h e)
  have h0 := run evs {} (by simp)
  unfold runCtrl
  refine le_trans (le_trans (Nat.le_add_right _ _) h0) ?_
  split <;> omega

/-! ### Subtree-time computation: the structural recursion law (C1) -/

/-- The `for (const child ...)` loop of the `compute` closure: fold the
children through `computeF` at the inner fuel, threading value and seen
set. -/
def computeFold (ms : List ModuleTiming) (fuel : Nat) :
    List String → Int × List String → Int × List String
  | [], acc => acc
  | c :: cs, acc =>
    let r := ProfileCollector.computeF ms fuel c acc.2
    computeFold ms fuel cs (acc.1 + r.1, r.2)

theorem computeF_succ (ms : List ModuleTiming) (fuel : Nat) (url : String)
    (seen : List String) :
    ProfileCollector.computeF ms (fuel + 1) url seen =
      if url ∈ seen then (0, seen)
      else
        match ProfileCollector.byUrl ms url with
        | none => (0, url :: seen)
        | some mod =>
          computeFold ms fuel (ProfileCollector.childrenOf ms url) (mod.loadTime, url :: seen) := by
  have hfold : ∀ (cs : List String) (acc : Int × List String),
      cs.foldl
        (fun acc c =>
          let r := ProfileCollector.computeF ms fuel c acc.2
          (acc.1 + r.1, r.2)) acc = computeFold ms fuel cs acc := by
    intro cs
    induction cs with
    | nil => intro acc; rfl
    | cons c cs ih => intro acc; rw [List.foldl_cons, computeFold, ih]
  rw [ProfileCollector.computeF]
  by_cases h : url ∈ seen
  · simp [h]
  · cases hb : ProfileCollector.byUrl ms url with
    | none => simp [h, hb]
    | some mod => simp [h, hb, hfold]

/-- Acyclicity of the parent graph, witnessed by a rank function that
strictly decreases from any record to each of its children. -/
abbrev RankOK (ms : List ModuleTiming) (rk : String → Nat) : Prop :=
  ∀ c ∈ ms, ∀ p ∈ ms, c.parentUrl = some p.resolvedUrl → rk c.resolvedUrl < rk p.resolvedUrl

/-- `Reaches ms u v`: `v` is a descendant of `u` along the child edges
that the `compute` recursion can actually follow (an edge leaves a URL
only when it resolves to a record). -/
inductive Reaches (ms : List ModuleTiming) : String → String → Prop
  | refl (u : String) : Reaches ms u u
  | tail {u p : String} {c : ModuleTiming} :
      Reaches ms u p → (ProfileCollector.byUrl ms p).isSome → c ∈ ms →
      c.parentUrl = some p → Reaches ms u c.resolvedUrl

theorem Reaches.append {ms : List ModuleTiming} {u v w : String} (h1 : Reaches ms u v)
    (h2 : Reaches ms v w) : Reaches ms u w := by
  induction h2 with
  | refl => exact h1
  | tail _ hsome hmem hpar ih => exact .tail ih hsome hmem hpar

theorem byUrl_aux_mem {url : String} :
    ∀ (ms : List ModuleTiming) (acc : Option ModuleTiming) (mod : ModuleTiming),
      ms.foldl (fun acc m => if m.resolvedUrl = url then some m else acc) acc = some mod →
      acc = some mod ∨ (mod ∈ ms ∧ mod.resolvedUrl = url) := by
  intro ms
  induction ms with
  | nil => intro acc mod h; exact Or.inl h
  | cons a tl ih =>
    intro acc mod h
    rw [List.foldl_cons] at h
    rcases ih _ mod h with h2 | h2
    · by_cases ha : a.resolvedUrl = url
      · rw [if_pos ha] at h2
        injection h2 with h2
        exact Or.inr ⟨by rw [← h2]; exact List.mem_cons_self a tl, by rw [← h2]; exact ha⟩
      · rw [if_neg ha] at h2
        exact Or.inl h2
    · exact Or.inr ⟨List.mem_cons_of_mem a h2.1, h2.2⟩

theorem byUrl_mem_eq {ms : List ModuleTiming} {url : String} {mod : ModuleTiming}
    (h : ProfileCollector.byUrl ms url = some mod) : mod ∈ ms ∧ mod.resolvedUrl = url := by
  rcases byUrl_aux_mem ms none mod h with h2 | h2
  · exact absurd h2 (by simp)
  · exact h2

theorem byUrl_aux_skip {url : String} {ms : List ModuleTiming}
    (h : ∀ x ∈ ms, x.resolvedUrl ≠ url) (acc : Option ModuleTiming) :
    ms.foldl (fun acc m => if m.resolvedUrl = url then some m else acc) acc = acc := by
  induction ms generalizing acc with
  | nil => rfl
  | cons a tl ih =>
    rw [List.foldl_cons, if_neg (h a (List.mem_cons_self a tl))]
    exact ih (fun x hx => h x (List.mem_cons_of_mem a hx)) acc

theorem byUrl_of_nodup {ms : List ModuleTiming}
    (hnd : (ms.map (fun m => m.resolvedUrl)).Nodup) {m : ModuleTiming} (hm : m ∈ ms) :
    ProfileCollector.byUrl ms m.resolvedUrl = some m := by
  induction ms with
  | nil => cases hm
  | cons a tl ih =>
    rw [List.map_cons, List.nodup_cons] at hnd
    rcases List.mem_cons.1 hm with rfl | hm2
    · unfold ProfileCollector.byUrl
      rw [List.foldl_cons, if_pos rfl]
      exact byUrl_aux_skip
        (fun x hx hxe =>
          hnd.1 (by rw [← hxe]; exact List.mem_map_of_mem (fun m => m.resolvedUrl) hx)) _
    · have hne : a.resolvedUrl ≠ m.resolvedUrl := by
        intro he
        exact hnd.1 (he ▸ List.mem_map_of_mem (fun m => m.resolvedUrl) hm2)
      unfold ProfileCollector.byUrl at ih ⊢
      rw [List.foldl_cons, if_neg hne]
      exact ih hnd.2 hm2

theorem url_inj {ms : List ModuleTiming}
    (hnd : (ms.map (fun m => m.resolvedUrl)).Nodup) {c c' : ModuleTiming} (hc : c ∈ ms)
    (hc' : c' ∈ ms) (he : c.resolvedUrl = c'.resolvedUrl) : c = c' :=
  List.inj_on_of_nodup_map hnd hc hc' he

theorem mem_childrenOf {ms : List ModuleTiming} {url c : String} :
    c ∈ ProfileCollector.childrenOf ms url ↔
      ∃ cm, cm ∈ ms ∧ cm.parentUrl = some url ∧ cm.resolvedUrl = c := by
  unfold ProfileCollector.childrenOf
  simp only [List.mem_map, List.mem_filter, decide_eq_true_eq]
  constructor
  · rintro ⟨cm, ⟨h1, h2⟩, h3⟩
    exact ⟨cm, h1, h2, h3⟩
  · rintro ⟨cm, h1, h2, h3⟩
    exact ⟨cm, ⟨h1, h2⟩, h3⟩

theorem reaches_rank_le {ms : List ModuleTiming} {rk : String → Nat} (hrk : RankOK ms rk)
    {u v : String} (h : Reaches ms u v) : rk v ≤ rk u := by
  induction h with
  | refl => exact le_refl _
  | tail _ hsome hmem hpar ih =>
    rename_i p c _
    obtain ⟨mp, hmp⟩ := Option.isSome_iff_exists.1 hsome
    obtain ⟨hmpMem, hmpUrl⟩ := byUrl_mem_eq hmp
    have hlt := hrk c hmem mp hmpMem (by rw [hmpUrl]; exact hpar)
    rw [hmpUrl] at hlt
    exact le_trans (le_of_lt hlt) ih

theorem reaches_converge {ms : List ModuleTiming}
    (hnd : (ms.map (fun m => m.resolvedUrl)).Nodup) {a b v : String}
    (hbv : Reaches ms b v) : Reaches ms a v → Reaches ms a b ∨ Reaches ms b a := by
  induction hbv with
  | refl => intro hav; exact Or.inl hav
  | tail hbp hsome hmem hpar ih =>
    intro hav
    rename_i p c
    generalize hv : c.resolvedUrl = w at hav
    cases hav with
    | refl => exact Or.inr (by rw [← hv]; exact Reaches.tail hbp hsome hmem hpar)
    | tail hap' hsome' hmem' hpar' =>
      rename_i p' c'
      have hcc : c' = c := url_inj hnd hmem' hmem hv.symm
      subst hcc
      rw [hpar'] at hpar
      injection hpar with hpp
      subst hpp
      exact ih hap'

theorem sibling_not_reaches {ms : List ModuleTiming} {rk : String → Nat}
    (hnd : (ms.map (fun m => m.resolvedUrl)).Nodup) (hrk : RankOK ms rk)
    {mp : ModuleTiming} (hmp : mp ∈ ms) {c1 c2 : ModuleTiming} (h1 : c1 ∈ ms) (h2 : c2 ∈ ms)
    (hp1 : c1.parentUrl = some mp.resolvedUrl) (hp2 : c2.parentUrl = some mp.resolvedUrl)
    (hne : c1.resolvedUrl ≠ c2.resolvedUrl) :
    ¬ Reaches ms c1.resolvedUrl c2.resolvedUrl := by
  intro hr
  generalize hv : c2.resolvedUrl = w at hr hne
  cases hr with
  | refl => exact hne rfl
  | tail hap hsome hmem hpar =>
    rename_i p c
    have hcc : c = c2 := url_inj hnd hmem h2 hv.symm
    subst hcc
    rw [hp2] at hpar
    injection hpar with hpp
    subst hpp
    have hle := reaches_rank_le hrk hap
    have hlt := hrk c1 h1 mp hmp hp1
    omega

theorem siblings_disjoint {ms : List ModuleTiming} {rk : String → Nat}
    (hnd : (ms.map (fun m => m.resolvedUrl)).Nodup) (hrk : RankOK ms rk)
    {mp : ModuleTiming} (hmp : mp ∈ ms) {c1 c2 : ModuleTiming} (h1 : c1 ∈ ms) (h2 : c2 ∈ ms)
    (hp1 : c1.parentUrl = some mp.resolvedUrl) (hp2 : c2.parentUrl = some mp.resolvedUrl)
    (hne : c1.resolvedUrl ≠ c2.resolvedUrl) {v : String} (hr1 : Reaches ms c1.resolvedUrl v)
    (hr2 : Reaches ms c2.resolvedUrl v) : False := by
  rcases reaches_converge hnd hr2 hr1 with h | h
  · exact sibling_not_reaches hnd hrk hmp h1 h2 hp1 hp2 hne h
  · exact sibling_not_reaches hnd hrk hmp h2 h1 hp2 hp1 (Ne.symm hne) h

/-- Number of module URLs not yet in the visited set: the measure that
bounds the recursion depth of `compute`. -/
def unseenCount (ms : List ModuleTiming) (seen : List String) : Nat :=
  ((ms.map (fun m => m.resolvedUrl)).filter (fun u => decide (¬ u ∈ seen))).length

theorem length_filter_mono {α : Type} {p q : α → Bool} (h : ∀ x, p x = true → q x = true) :
    ∀ l : List α, (l.filter p).length ≤ (l.filter q).length := by
  intro l
  induction l with
  | nil => exact le_refl _
  | cons a l ih =>
    by_cases hp : p a = true
    · rw [List.filter_cons_of_pos hp, List.filter_cons_of_pos (h a hp)]
      exact Nat.succ_le_succ ih
    · rw [List.filter_cons_of_neg (by simpa using hp)]
      by_cases hq : q a = true
      · rw [List.filter_cons_of_pos hq]
        exact le_trans ih (Nat.le_succ _)
      · rw [List.filter_cons_of_neg (by simpa using hq)]
        exact ih

theorem unseenCount_mono {ms : List ModuleTiming} {s s' : List String}
    (h : ∀ v ∈ s, v ∈ s') : unseenCount ms s' ≤ unseenCount ms s := by
  apply length_filter_mono
  intro x hx
  simp only [decide_eq_true_eq] at hx ⊢
  exact fun hmem => hx (h x hmem)

theorem unseenCount_cons_lt {ms : List ModuleTiming} {url : String} {seen : List String}
    (hu : url ∈ ms.map (fun m => m.resolvedUrl)) (hs : url ∉ seen) :
    unseenCount ms (url :: seen) < unseenCount ms seen := by
  unfold unseenCount
  generalize ms.map (fun m => m.resolvedUrl) = l at hu
  induction l with
  | nil => cases hu
  | cons a l ih =>
    rcases List.mem_cons.1 hu with rfl | ha
    · rw [List.filter_cons_of_neg (by simp), List.filter_cons_of_pos (by simpa using hs)]
      refine Nat.lt_succ_of_le (length_filter_mono ?_ l)
      intro x hx
      simp only [decide_eq_true_eq, List.mem_cons] at hx ⊢
      exact fun hmem => hx (Or.inr hmem)
    · by_cases hmem : a ∈ seen
      · rw [List.filter_cons_of_neg
            (by simp only [decide_eq_true_eq, not_not]; exact List.mem_cons_of_mem url hmem),
          List.filter_cons_of_neg (by simp only [decide_eq_true_eq, not_not]; exact hmem)]
        exact ih ha
      · by_cases hau : a = url
        · subst hau
          rw [List.filter_cons_of_neg (by simp), List.filter_cons_of_pos (by simpa using hmem)]
          refine Nat.lt_succ_of_le (length_filter_mono ?_ l)
          intro x hx
          simp only [decide_eq_true_eq, List.mem_cons] at hx ⊢
          exact fun hm => hx (Or.inr hm)
        · rw [List.filter_cons_of_pos (by simp [hau, hmem]),
            List.filter_cons_of_pos (by simpa using hmem)]
          exact Nat.succ_lt_succ (ih ha)

theorem unseenCount_le_length (ms : List ModuleTiming) (seen : List String) :
    unseenCount ms seen ≤ ms.length := by
  unfold unseenCount
  calc ((ms.map (fun m => m.resolvedUrl)).filter _).length
      ≤ (ms.map (fun m => m.resolvedUrl)).length := List.length_filter_le _ _
    _ = ms.length := List.length_map _ _

theorem computeF_seen_mono (ms : List ModuleTiming) :
    ∀ (f : Nat) (url : String) (seen : List String) (v : String), v ∈ seen →
      v ∈ (ProfileCollector.computeF ms f url seen).2 := by
  intro f
  induction f with
  | zero => intro url seen v hv; exact hv
  | succ fc ih =>
    have hfold : ∀ (cs : List String) (acc : Int × List String) (v : String), v ∈ acc.2 →
        v ∈ (computeFold ms fc cs acc).2 := by
      intro cs
      induction cs with
      | nil => intro acc v hv; exact hv
      | cons c cs ihc =>
        intro acc v hv
        rw [computeFold]
        exact ihc _ v (ih c acc.2 v hv)
    intro url seen v hv
    rw [computeF_succ]
    by_cases h : url ∈ seen
    · rw [if_pos h]; exact hv
    · rw [if_neg h]
      cases hb : ProfileCollector.byUrl ms url with
      | none => exact List.mem_cons_of_mem _ hv
      | some mod => exact hfold _ _ v (List.mem_cons_of_mem _ hv)

theorem computeF_seen_reach (ms : List ModuleTiming) :
    ∀ (f : Nat) (url : String) (seen : List String) (v : String),
      v ∈ (ProfileCollector.computeF ms f url seen).2 → v ∈ seen ∨ Reaches ms url v := by
  intro f
  induction f with
  | zero => intro url seen v hv; exact Or.inl hv
  | succ fc ih =>
    have hfold : ∀ (url : String) (cs : List String) (acc : Int × List String) (v : String),
        v ∈ (computeFold ms fc cs acc).2 →
        v ∈ acc.2 ∨ ∃ c ∈ cs, Reaches ms c v := by
      intro url cs
      induction cs with
      | nil => intro acc v hv; exact Or.inl hv
      | cons c cs ihc =>
        intro acc v hv
        rw [computeFold] at hv
        rcases ihc _ v hv with h2 | ⟨c', hc', hr⟩
        · rcases ih c acc.2 v h2 with h3 | h3
          · exact Or.inl h3
          · exact Or.inr ⟨c, List.mem_cons_self c cs, h3⟩
        · exact Or.inr ⟨c', List.mem_cons_of_mem c hc', hr⟩
    intro url seen v hv
    rw [computeF_succ] at hv
    by_cases h : url ∈ seen
    · rw [if_pos h] at hv; exact Or.inl hv
    · rw [if_neg h] at hv
      cases hb : ProfileCollector.byUrl ms url with
      | none =>
        rw [hb] at hv
        rcases List.mem_cons.1 hv with rfl | h2
        · exact Or.inr (Reaches.refl v)
        · exact Or.inl h2
      | some mod =>
        rw [hb] at hv
        rcases hfold url _ _ v hv with h2 | ⟨c, hc, hr⟩
        · rcases List.mem_cons.1 h2 with rfl | h3
          · exact Or.inr (Reaches.refl v)
          · exact Or.inl h3
        · obtain ⟨cm, hcmMem, hcmPar, hcmUrl⟩ := mem_childrenOf.1 hc
          have hedge : Reaches ms url c := by
            rw [← hcmUrl]
            exact Reaches.tail (Reaches.refl url) (by rw [hb]; rfl) hcmMem hcmPar
          exact Or.inr (hedge.append hr)

/-- Key lemma for the subtree-time law: on an acyclic record list the
value `compute` returns for a URL does not depend on the fuel (once
above the unseen-count bound) or on visited entries that are not
descendants of that URL, and the visited sets it produces agree on the
URL's descendants. -/
theorem computeF_congr {ms : List ModuleTiming} {rk : String → Nat}
    (hnd : (ms.map (fun m => m.resolvedUrl)).Nodup) (hrk : RankOK ms rk) :
    ∀ (n : Nat) (url : String), rk url ≤ n →
      ∀ (f f' : Nat) (seen seen' : List String),
        unseenCount ms seen < f → unseenCount ms seen' < f' →
        (∀ v, Reaches ms url v → (v ∈ seen ↔ v ∈ seen')) →
        (ProfileCollector.computeF ms f url seen).1 =
          (ProfileCollector.computeF ms f' url seen').1 ∧
        (∀ v, Reaches ms url v →
          (v ∈ (ProfileCollector.computeF ms f url seen).2 ↔
            v ∈ (ProfileCollector.computeF ms f' url seen').2)) := by
  intro n
  induction n using Nat.strong_induction_on with
  | _ n IH =>
    intro url hn f f' seen seen' hf hf' hagree
    match f, f' with
    | fc + 1, fc' + 1 =>
      have hself := hagree url (Reaches.refl url)
      by_cases hu : url ∈ seen
      · have hu' : url ∈ seen' := hself.1 hu
        rw [computeF_succ, computeF_succ, if_pos hu, if_pos hu']
        exact ⟨rfl, fun v hr => hagree v hr⟩
      · have hu' : url ∉ seen' := fun h => hu (hself.2 h)
        rw [computeF_succ, computeF_succ, if_neg hu, if_neg hu']
        cases hb : ProfileCollector.byUrl ms url with
        | none =>
          refine ⟨rfl, fun v hr => ?_⟩
          simp only [List.mem_cons]
          exact or_congr Iff.rfl (hagree v hr)
        | some mod =>
          obtain ⟨hmodMem, hmodUrl⟩ := byUrl_mem_eq hb
          have hurlU : url ∈ ms.map (fun m => m.resolvedUrl) := by
            rw [← hmodUrl]
            exact List.mem_map_of_mem _ hmodMem
          have hcapS : unseenCount ms (url :: seen) < fc := by
            have h1 : unseenCount ms (url :: seen) < unseenCount ms seen :=
              unseenCount_cons_lt hurlU hu
            omega
          have hcapS' : unseenCount ms (url :: seen') < fc' := by
            have h1 : unseenCount ms (url :: seen') < unseenCount ms seen' :=
              unseenCount_cons_lt hurlU hu'
            omega
          have fold_main : ∀ cs : List String,
              (∀ c ∈ cs, ∃ cm, cm ∈ ms ∧ cm.parentUrl = some url ∧ cm.resolvedUrl = c) →
              ∀ (s s' : List String) (v0 : Int),
                (∀ v ∈ url :: seen, v ∈ s) → (∀ v ∈ url :: seen', v ∈ s') →
                unseenCount ms s < fc → unseenCount ms s' < fc' →
                (∀ v, Reaches ms url v → (v ∈ s ↔ v ∈ s')) →
                (computeFold ms fc cs (v0, s)).1 = (computeFold ms fc' cs (v0, s')).1 ∧
                (∀ v, Reaches ms url v →
                  (v ∈ (computeFold ms fc cs (v0, s)).2 ↔
                    v ∈ (computeFold ms fc' cs (v0, s')).2)) := by
            intro cs
            induction cs with
            | nil =>
              intro _ s s' v0 _ _ _ _ hag
              exact ⟨rfl, fun v hr => hag v hr⟩
            | cons c cs ihcs =>
              intro hcs s s' v0 hsup hsup' hcnt hcnt' hag
              obtain ⟨cm, hcmMem, hcmPar, hcmUrl⟩ := hcs c (List.mem_cons_self c cs)
              have hrkc : rk c < rk url := by
                have h1 := hrk cm hcmMem mod hmodMem (by rw [hmodUrl]; exact hcmPar)
                rw [hcmUrl, hmodUrl] at h1
                exact h1
              have hedge : Reaches ms url c := by
                rw [← hcmUrl]
                exact Reaches.tail (Reaches.refl url) (by rw [hb]; rfl) hcmMem hcmPar
              have hagc : ∀ v, Reaches ms c v → (v ∈ s ↔ v ∈ s') :=
                fun v hr => hag v (hedge.append hr)
              have hch := IH (rk c) (by omega) c (le_refl _) fc fc' s s' hcnt hcnt' hagc
              rw [computeFold, computeFold]
              simp only
              rw [hch.1]
              have hsup2 : ∀ v ∈ url :: seen, v ∈ (ProfileCollector.computeF ms fc c s).2 :=
                fun v hv => computeF_seen_mono ms fc c s v (hsup v hv)
              have hsup2' : ∀ v ∈ url :: seen', v ∈ (ProfileCollector.computeF ms fc' c s').2 :=
                fun v hv => computeF_seen_mono ms fc' c s' v (hsup' v hv)
              have hcnt2 : unseenCount ms (ProfileCollector.computeF ms fc c s).2 < fc :=
                lt_of_le_of_lt
                  (le_trans
                    (unseenCount_mono (fun v hv => computeF_seen_mono ms fc c s v (hsup v hv)))
                    (le_refl _))
                  (lt_of_le_of_lt (le_refl _) hcapS)
              have hcnt2' : unseenCount ms (ProfileCollector.computeF ms fc' c s').2 < fc' :=
                lt_of_le_of_lt
                  (unseenCount_mono (fun v hv => computeF_seen_mono ms fc' c s' v (hsup' v hv)))
                  hcapS'
              have hag2 : ∀ v, Reaches ms url v →
                  (v ∈ (ProfileCollector.computeF ms fc c s).2 ↔
                    v ∈ (ProfileCollector.computeF ms fc' c s').2) := by
                intro v hr
                by_cases hrc : Reaches ms c v
                · exact hch.2 v hrc
                · constructor
                  · intro hv
                    rcases computeF_seen_reach ms fc c s v hv with h2 | h2
                    · exact computeF_seen_mono ms fc' c s' v ((hag v hr).1 h2)
                    · exact absurd h2 hrc
                  · intro hv
                    rcases computeF_seen_reach ms fc' c s' v hv with h2 | h2
                    · exact computeF_seen_mono ms fc c s v ((hag v hr).2 h2)
                    · exact absurd h2 hrc
              exact ihcs (fun c' hc' => hcs c' (List.mem_cons_of_mem c hc'))
                (ProfileCollector.computeF ms fc c s).2
                (ProfileCollector.computeF ms fc' c s').2
                (v0 + (ProfileCollector.computeF ms fc' c s').1)
                hsup2 hsup2' hcnt2 hcnt2' hag2
          refine fold_main (ProfileCollector.childrenOf ms url)
            (fun c hc => mem_childrenOf.1 hc) (url :: seen) (url :: seen') mod.loadTime
            (fun v hv => hv) (fun v hv => hv) hcapS hcapS' ?_
          intro v hr
          simp only [List.mem_cons]
          exact or_congr Iff.rfl (hagree v hr)

theorem childrenOf_nodup {ms : List ModuleTiming}
    (hnd : (ms.map (fun m => m.resolvedUrl)).Nodup) (url : String) :
    (ProfileCollector.childrenOf ms url).Nodup := by
  unfold ProfileCollector.childrenOf
  exact List.Nodup.sublist (List.Sublist.map _ (List.filter_sublist ms)) hnd

theorem computeFold_sum {ms : List ModuleTiming} {rk : String → Nat}
    (hnd : (ms.map (fun m => m.resolvedUrl)).Nodup) (hrk : RankOK ms rk)
    {m : ModuleTiming} (hm : m ∈ ms) :
    ∀ (cs done : List String),
      ProfileCollector.childrenOf ms m.resolvedUrl = done ++ cs →
      ∀ (s : List String) (v0 : Int),
        m.resolvedUrl ∈ s →
        (∀ v ∈ s, v = m.resolvedUrl ∨ ∃ c' ∈ done, Reaches ms c' v) →
        (computeFold ms ms.length cs (v0, s)).1 =
          v0 + (cs.map (fun c => ProfileCollector.compute ms c)).sum := by
  have hurlU : m.resolvedUrl ∈ ms.map (fun x => x.resolvedUrl) :=
    List.mem_map_of_mem _ hm
  intro cs
  induction cs with
  | nil =>
    intro done _ s v0 _ _
    simp [computeFold]
  | cons c cs ihcs =>
    intro done hsplit s v0 hms hinv
    have hcMem : c ∈ ProfileCollector.childrenOf ms m.resolvedUrl := by
      rw [hsplit]
      exact List.mem_append_right done (List.mem_cons_self c cs)
    obtain ⟨cm, hcmMem, hcmPar, hcmUrl⟩ := mem_childrenOf.1 hcMem
    have hrkc : rk c < rk m.resolvedUrl := by
      have h1 := hrk cm hcmMem m hm hcmPar
      rw [hcmUrl] at h1
      exact h1
    have hchn : (ProfileCollector.childrenOf ms m.resolvedUrl).Nodup := childrenOf_nodup hnd _
    have hcdone : c ∉ done := by
      intro hcd
      have h1 : (done ++ c :: cs).Nodup := hsplit ▸ hchn
      rcases List.nodup_append.1 h1 with ⟨_, _, hdisj⟩
      exact hdisj hcd (List.mem_cons_self c cs)
    have hagc : ∀ v, Reaches ms c v → (v ∈ s ↔ v ∈ ([] : List String)) := by
      intro v hr
      simp only [List.not_mem_nil, iff_false]
      intro hv
      rcases hinv v hv with rfl | ⟨c', hc'Done, hr'⟩
      · have hle := reaches_rank_le hrk hr
        omega
      · have hc'Mem : c' ∈ ProfileCollector.childrenOf ms m.resolvedUrl := by
          rw [hsplit]
          exact List.mem_append_left _ hc'Done
        obtain ⟨cm', hcm'Mem, hcm'Par, hcm'Url⟩ := mem_childrenOf.1 hc'Mem
        have hne : cm'.resolvedUrl ≠ cm.resolvedUrl := by
          rw [hcm'Url, hcmUrl]
          intro he
          exact hcdone (he ▸ hc'Done)
        exact siblings_disjoint hnd hrk hm hcm'Mem hcmMem hcm'Par hcmPar hne
          (hcm'Url ▸ hr') (hcmUrl ▸ hr)
    have hcnt : unseenCount ms s < ms.length := by
      have h1 : unseenCount ms s ≤ unseenCount ms [m.resolvedUrl] :=
        unseenCount_mono (by
          intro v hv
          rcases List.mem_singleton.1 hv with rfl
          exact hms)
      have h2 : unseenCount ms [m.resolvedUrl] < unseenCount ms [] :=
        unseenCount_cons_lt hurlU (List.not_mem_nil _)
      have h3 := unseenCount_le_length ms ([] : List String)
      omega
    have hcntNil : unseenCount ms ([] : List String) < ms.length + 1 := by
      have := unseenCount_le_length ms ([] : List String)
      omega
    have hcongr := computeF_congr hnd hrk (rk c) c (le_refl _) ms.length (ms.length + 1) s []
      hcnt hcntNil hagc
    rw [computeFold]
    simp only
    have hval : (ProfileCollector.computeF ms ms.length c s).1 =
        ProfileCollector.compute ms c := hcongr.1
    rw [hval]
    have hnext := ihcs (done ++ [c]) (by rw [hsplit, List.append_cons])
      (ProfileCollector.computeF ms ms.length c s).2 (v0 + ProfileCollector.compute ms c)
      (computeF_seen_mono ms ms.length c s m.resolvedUrl hms)
      (by
        intro v hv
        rcases computeF_seen_reach ms ms.length c s v hv with h2 | h2
        · rcases hinv v h2 with h3 | ⟨c', hc', hr'⟩
          · exact Or.inl h3
          · exact Or.inr ⟨c', List.mem_append_left _ hc', hr'⟩
        · exact Or.inr ⟨c, List.mem_append_right _ (List.mem_singleton_self c), h2⟩)
    rw [hnext, List.map_cons, List.sum_cons]
    ring

theorem compute_law {ms : List ModuleTiming} {rk : String → Nat}
    (hnd : (ms.map (fun m => m.resolvedUrl)).Nodup) (hrk : RankOK ms rk)
    {m : ModuleTiming} (hm : m ∈ ms) :
    ProfileCollector.compute ms m.resolvedUrl =
      m.loadTime + ((ProfileCollector.childrenOf ms m.resolvedUrl).map
        (fun c => ProfileCollector.compute ms c)).sum := by
  show (ProfileCollector.computeF ms (ms.length + 1) m.resolvedUrl []).1 = _
  rw [computeF_succ, if_neg (List.not_mem_nil m.resolvedUrl), byUrl_of_nodup hnd hm]
  exact computeFold_sum hnd hrk hm (ProfileCollector.childrenOf ms m.resolvedUrl) []
    (List.nil_append _).symm [m.resolvedUrl] m.loadTime (List.mem_singleton_self _)
    (by
      intro v hv
      exact Or.inl (List.mem_singleton.1 hv))

/-- A topological rank for the chain fixture (children rank below
parents). -/
def chainRank : String → Nat := fun u =>
  if u = "file:///app/a.ts" then 2 else if u = "file:///app/b.ts" then 1 else 0

/-- Claim C1 -/
theorem populateSubtreeTimes_law :
    (∀ (ms : List ModuleTiming) (rk : String → Nat),
        (ms.map (fun m => m.resolvedUrl)).Nodup → RankOK ms rk →
        ∀ m' ∈ ProfileCollector.populateSubtreeTimes ms,
          m'.subtreeTime = some (m'.loadTime +
            (((ProfileCollector.populateSubtreeTimes ms).filter
                (fun c => c.parentUrl = some m'.resolvedUrl)).map
              (fun c => c.subtreeTime.getD 0)).sum))
    ∧ (ProfileCollector.populateSubtreeTimes [chainA, chainB, chainC]).map
        (fun m => (m.resolvedUrl, m.subtreeTime)) =
      [("file:///app/a.ts", some 60), ("file:///app/b.ts", some 50),
       ("file:///app/c.ts", some 30)] := by
  constructor
  · intro ms rk hnd hrk m' hm'
    rw [ProfileCollector.populateSubtreeTimes, List.mem_map] at hm'
    obtain ⟨m, hm, rfl⟩ := hm'
    have hsum :
        (((ProfileCollector.populateSubtreeTimes ms).filter
            (fun c => c.parentUrl = some m.resolvedUrl)).map
          (fun c => c.subtreeTime.getD 0)) =
        ((ProfileCollector.childrenOf ms m.resolvedUrl).map
          (fun c => ProfileCollector.compute ms c)) := by
      unfold ProfileCollector.populateSubtreeTimes ProfileCollector.childrenOf
      rw [List.filter_map, List.map_map, List.map_map]
      rfl
    show some (ProfileCollector.compute ms m.resolvedUrl) = _
    rw [compute_law hnd hrk hm]
    simp only
    rw [hsum]
  · decide

/-- Witness for C1 at the chain fixture, instantiated at module `b`. -/
theorem populateSubtreeTimes_law_witness :
    ({ chainB with subtreeTime := some 50 } : ModuleTiming).subtreeTime =
      some (({ chainB with subtreeTime := some 50 } : ModuleTiming).loadTime +
        (((ProfileCollector.populateSubtreeTimes [chainA, chainB, chainC]).filter
            (fun c => c.parentUrl =
              some ({ chainB with subtreeTime := some 50 } : ModuleTiming).resolvedUrl)).map
          (fun c => c.subtreeTime.getD 0)).sum) :=
  populateSubtreeTimes_law.1 [chainA, chainB, chainC] chainRank (by decide) (by decide)
    { chainB with subtreeTime := some 50 } (by decide)

/-! ### Orphaned parent references become roots (C6) -/

theorem mapGet_mapSet (nm : NodeMap) (k : String) (v : ModuleNode) (u : String) :
    mapGet (mapSet nm k v) u = if u = k then some v else mapGet nm u := by
  induction nm with
  | nil =>
    show mapGet [(k, v)] u = _
    by_cases h : u = k
    · simp [mapGet, h]
    · simp [mapGet, h, Ne.symm h]
  | cons p ps ih =>
    by_cases hpk : p.1 = k
    · by_cases huk : u = k
      · simp [mapSet, mapGet, hpk, huk]
      · have hpu : p.1 ≠ u := fun he => huk (hpk.symm.trans he).symm
        simp [mapSet, mapGet, hpk, huk, Ne.symm huk, hpu]
    · by_cases hpu : p.1 = u
      · have huk : ¬ u = k := fun he => hpk (hpu.trans he)
        simp [mapSet, mapGet, hpk, hpu, huk]
      · by_cases huk : u = k
        · subst huk
          simp [mapSet, mapGet, hpk, hpu, ih]
        · simp [mapSet, mapGet, hpk, hpu, huk, ih]

theorem mapSet_keys_of_isSome {nm : NodeMap} {k : String} (h : (mapGet nm k).isSome)
    (v : ModuleNode) : (mapSet nm k v).map Prod.fst = nm.map Prod.fst := by
  induction nm with
  | nil => simp [mapGet] at h
  | cons p ps ih =>
    by_cases hpk : p.1 = k
    · simp [mapSet, hpk]
    · rw [mapGet, if_neg hpk] at h
      simp [mapSet, hpk, ih h]

theorem mapGet_mem {nm : NodeMap} {k : String} {v : ModuleNode} (h : mapGet nm k = some v) :
    (k, v) ∈ nm := by
  induction nm with
  | nil => simp [mapGet] at h
  | cons p ps ih =>
    by_cases hpk : p.1 = k
    · rw [mapGet, if_pos hpk] at h
      injection h with h
      have hp : (k, v) = p := by
        cases p with
        | mk a b =>
          simp only at hpk h
          rw [hpk, h]
      rw [hp]
      exact List.mem_cons_self p ps
    · rw [mapGet, if_neg hpk] at h
      exact List.mem_cons_of_mem p (ih h)

theorem buildNodesAux_congr (cwd : String) :
    ∀ (tl : List ModuleTiming) (u : String) (acc acc2 : NodeMap),
      mapGet acc u = mapGet acc2 u →
      mapGet (tl.foldl (fun nm t => mapSet nm t.resolvedUrl (buildNode cwd t)) acc) u =
        mapGet (tl.foldl (fun nm t => mapSet nm t.resolvedUrl (buildNode cwd t)) acc2) u := by
  intro tl
  induction tl with
  | nil => intro u acc acc2 h; exact h
  | cons b tl ih =>
    intro u acc acc2 h
    rw [List.foldl_cons, List.foldl_cons]
    exact ih u _ _ (by rw [mapGet_mapSet, mapGet_mapSet, h])

theorem buildNodesAux_skip (cwd : String) :
    ∀ (tl : List ModuleTiming) (u : String) (acc : NodeMap),
      (∀ x ∈ tl, x.resolvedUrl ≠ u) →
      mapGet (tl.foldl (fun nm t => mapSet nm t.resolvedUrl (buildNode cwd t)) acc) u =
        mapGet acc u := by
  intro tl
  induction tl with
  | nil => intro u acc _; rfl
  | cons a tl ih =>
    intro u acc hne
    rw [List.foldl_cons, ih _ _ (fun x hx => hne x (List.mem_cons_of_mem a hx)),
      mapGet_mapSet, if_neg (fun he => hne a (List.mem_cons_self a tl) he.symm)]

/-- The node `buildNodes` files under a record's URL (unique URLs). -/
theorem buildNodes_get {ms : List ModuleTiming} (cwd : String)
    (hnd : (ms.map (fun x => x.resolvedUrl)).Nodup) {m : ModuleTiming} (hm : m ∈ ms) :
    mapGet (buildNodes ms cwd) m.resolvedUrl = some (buildNode cwd m) := by
  unfold buildNodes
  induction ms with
  | nil => cases hm
  | cons a tl ih =>
    rw [List.map_cons, List.nodup_cons] at hnd
    rcases List.mem_cons.1 hm with rfl | hm2
    · rw [List.foldl_cons,
        buildNodesAux_skip cwd tl _ _ (fun x hx he =>
          hnd.1 (by rw [← he]; exact List.mem_map_of_mem (fun m => m.resolvedUrl) hx)),
        mapGet_mapSet, if_pos rfl]
    · rw [List.foldl_cons,
        buildNodesAux_congr cwd tl m.resolvedUrl (mapSet [] a.resolvedUrl (buildNode cwd a)) []
          (by
            rw [mapGet_mapSet, if_neg (fun he =>
              hnd.1 (by rw [← he]; exact List.mem_map_of_mem (fun m => m.resolvedUrl) hm2))])]
      exact ih hnd.2 hm2

/-- A URL matching no record is absent from the node map. -/
theorem buildNodes_get_none {ms : List ModuleTiming} (cwd : String) {u : String}
    (h : ∀ x ∈ ms, x.resolvedUrl ≠ u) : mapGet (buildNodes ms cwd) u = none := by
  unfold buildNodes
  rw [buildNodesAux_skip cwd ms u [] h]
  rfl

theorem linkStep_skip1 {nm : NodeMap} {w : String} (h : mapGet nm w = none) :
    linkStep nm w = nm := by
  unfold linkStep
  simp only [h]

theorem linkStep_skip2 {nm : NodeMap} {w : String} {node : ModuleNode}
    (h : mapGet nm w = some node) (h2 : node.timing.parentUrl = none) :
    linkStep nm w = nm := by
  unfold linkStep
  simp only [h, h2]

theorem linkStep_skip3 {nm : NodeMap} {w p : String} {node : ModuleNode}
    (h : mapGet nm w = some node) (h2 : node.timing.parentUrl = some p)
    (h3 : mapGet nm p = none) : linkStep nm w = nm := by
  unfold linkStep
  simp only [h, h2, h3]

theorem linkStep_eq {nm : NodeMap} {w p : String} {node parentNode : ModuleNode}
    (h : mapGet nm w = some node) (h2 : node.timing.parentUrl = some p)
    (h3 : mapGet nm p = some parentNode) :
    linkStep nm w =
      match mapGet (mapSet nm p { parentNode with children := parentNode.children ++ [w] }) w with
      | none => mapSet nm p { parentNode with children := parentNode.children ++ [w] }
      | some node2 =>
        mapSet (mapSet nm p { parentNode with children := parentNode.children ++ [w] }) w
          { node2 with parent := some p } := by
  unfold linkStep
  simp only [h, h2, h3]

/-- What the linking pass preserves: every node keeps its timing (in
particular the key set is unchanged). -/
def LinkInv (nm0 nm : NodeMap) : Prop :=
  ∀ u, (mapGet nm u).map (fun n => n.timing) = (mapGet nm0 u).map (fun n => n.timing)

theorem linkStep_timing {nm0 nm : NodeMap} (h : LinkInv nm0 nm) (w : String) :
    LinkInv nm0 (linkStep nm w) := by
  cases hw : mapGet nm w with
  | none => rw [linkStep_skip1 hw]; exact h
  | some node =>
    cases hp : node.timing.parentUrl with
    | none => rw [linkStep_skip2 hw hp]; exact h
    | some p =>
      cases hpp : mapGet nm p with
      | none => rw [linkStep_skip3 hw hp hpp]; exact h
      | some parentNode =>
        rw [linkStep_eq hw hp hpp]
        cases hw2 : mapGet (mapSet nm p
            { parentNode with children := parentNode.children ++ [w] }) w with
        | none =>
          rw [mapGet_mapSet] at hw2
          by_cases hwp : w = p
          · rw [if_pos hwp] at hw2; cases hw2
          · rw [if_neg hwp, hw] at hw2; cases hw2
        | some node2 =>
          intro u
          rw [mapGet_mapSet] at hw2
          simp only
          rw [mapGet_mapSet, mapGet_mapSet]
          by_cases huw : u = w
          · rw [if_pos huw]
            by_cases hwp : w = p
            · rw [if_pos hwp] at hw2
              injection hw2 with hw2
              rw [← hw2]
              simp only [Option.map_some']
              have := h p
              rw [hpp] at this
              simp only [Option.map_some'] at this
              rw [huw, hwp]
              simpa using this.symm ▸ this
            · rw [if_neg hwp] at hw2
              rw [hw] at hw2
              injection hw2 with hw2
              rw [← hw2]
              simp only [Option.map_some']
              have := h w
              rw [hw] at this
              simp only [Option.map_some'] at this
              rw [huw]
              exact this
          · rw [if_neg huw]
            by_cases hup : u = p
            · rw [if_pos hup]
              simp only [Option.map_some']
              have := h p
              rw [hpp] at this
              simp only [Option.map_some'] at this
              rw [hup]
              exact this
            · rw [if_neg hup]
              exact h u

/-- A module whose parent URL resolves to no node keeps `parent = none`
through one linking step. -/
theorem linkStep_parent_keep {nm0 nm : NodeMap} {mu : String}
    (hI : LinkInv nm0 nm) {mt : ModuleTiming}
    (ht : (mapGet nm0 mu).map (fun n => n.timing) = some mt)
    (hpn : ∀ q : String, mt.parentUrl = some q → mapGet nm0 q = none)
    {node : ModuleNode} (hbm : mapGet nm mu = some node) (hbp : node.parent = none)
    (w : String) :
    ∃ node2, mapGet (linkStep nm w) mu = some node2 ∧ node2.parent = none := by
  have htm : node.timing = mt := by
    have := hI mu
    rw [hbm, ht] at this
    simpa using this
  cases hw : mapGet nm w with
  | none => exact ⟨node, by rw [linkStep_skip1 hw]; exact hbm, hbp⟩
  | some wnode =>
    cases hp : wnode.timing.parentUrl with
    | none => exact ⟨node, by rw [linkStep_skip2 hw hp]; exact hbm, hbp⟩
    | some p =>
      cases hpp : mapGet nm p with
      | none => exact ⟨node, by rw [linkStep_skip3 hw hp hpp]; exact hbm, hbp⟩
      | some parentNode =>
        -- w cannot be mu: mu's parent URL resolves to no node
        have hwmu : w ≠ mu := by
          intro he
          rw [he, hbm] at hw
          injection hw with hw
          rw [← hw, htm] at hp
          have := hpn p hp
          have h2 := hI p
          rw [hpp, this] at h2
          cases h2
        rw [linkStep_eq hw hp hpp]
        cases hw2 : mapGet (mapSet nm p
            { parentNode with children := parentNode.children ++ [w] }) w with
        | none =>
          rw [mapGet_mapSet] at hw2
          by_cases hwp : w = p
          · rw [if_pos hwp] at hw2; cases hw2
          · rw [if_neg hwp, hw] at hw2; cases hw2
        | some node2 =>
          simp only
          rw [mapGet_mapSet]
          rw [if_neg (fun he => hwmu he.symm)]
          rw [mapGet_mapSet]
          by_cases hmp : mu = p
          · rw [if_pos hmp]
            refine ⟨_, rfl, ?_⟩
            have : parentNode = node := by
              rw [← hmp, hbm] at hpp
              injection hpp with hpp
              rw [hpp]
            rw [this]
            exact hbp
          · rw [if_neg hmp]
            exact ⟨node, hbm, hbp⟩

/-- Through the whole linking pass, a record whose parent URL matches no
node keeps its `parent = none`, and every node keeps its timing. -/
theorem linkParents_facts {nm0 : NodeMap} {mu : String} {mt : ModuleTiming}
    (ht : (mapGet nm0 mu).map (fun n => n.timing) = some mt)
    (hpn : ∀ q : String, mt.parentUrl = some q → mapGet nm0 q = none)
    {node : ModuleNode} (hbm : mapGet nm0 mu = some node) (hbp : node.parent = none) :
    LinkInv nm0 (linkParents nm0) ∧
      ∃ node2, mapGet (linkParents nm0) mu = some node2 ∧ node2.parent = none := by
  unfold linkParents
  have hgen : ∀ (ws : List String) (nm : NodeMap), LinkInv nm0 nm →
      (∃ n1, mapGet nm mu = some n1 ∧ n1.parent = none) →
      LinkInv nm0 (ws.foldl linkStep nm) ∧
        ∃ n2, mapGet (ws.foldl linkStep nm) mu = some n2 ∧ n2.parent = none := by
    intro ws
    induction ws with
    | nil => intro nm hI hb; exact ⟨hI, hb⟩
    | cons w ws ih =>
      intro nm hI hb
      obtain ⟨n1, hn1, hn1p⟩ := hb
      rw [List.foldl_cons]
      exact ih (linkStep nm w) (linkStep_timing hI w)
        (linkStep_parent_keep hI ht hpn hn1 hn1p w)
  exact hgen _ nm0 (fun u => rfl) ⟨node, hbm, hbp⟩

/-- The child loop of `setDepths` with the `Option` threading spelled
out. -/
def depthFold (fuel : Nat) : List String → Nat → Option (NodeMap × List String) →
    Option (NodeMap × List String)
  | [], _, acc => acc
  | _ :: _, _, none => none
  | c :: cs, depth, some st => depthFold fuel cs depth (setDepthsF fuel c depth st)

theorem depthFold_none (fuel : Nat) :
    ∀ (cs : List String) (depth : Nat), depthFold fuel cs depth none = none := by
  intro cs depth
  cases cs <;> rfl

theorem setDepthsF_succ (fuel : Nat) (url : String) (depth : Nat)
    (st : NodeMap × List String) :
    setDepthsF (fuel + 1) url depth st =
      if url ∈ st.2 then some st
      else
        match mapGet st.1 url with
        | none => some st
        | some node =>
          depthFold fuel node.children (depth + 1)
            (some (mapSet st.1 url { node with depth := depth }, url :: st.2)) := by
  have hfold : ∀ (cs : List String) (acc : Option (NodeMap × List String)),
      cs.foldl
        (fun acc c =>
          match acc with
          | none => none
          | some st2 => setDepthsF fuel c (depth + 1) st2) acc =
        depthFold fuel cs (depth + 1) acc := by
    intro cs
    induction cs with
    | nil => intro acc; rfl
    | cons c cs ih =>
      intro acc
      cases acc with
      | none =>
        rw [List.foldl_cons]
        exact (ih none).trans (by cases cs <;> rfl)
      | some st =>
        rw [List.foldl_cons]
        exact ih _
  rw [setDepthsF]
  by_cases h : url ∈ st.2
  · simp [h]
  · cases hb : mapGet st.1 url with
    | none => simp [h, hb]
    | some node => simp [h, hb, hfold]

/-- Number of map keys not yet visited: the measure that bounds the
depth recursion. -/
def unseenKeys (keys seen : List String) : Nat :=
  (keys.filter (fun u => decide (¬ u ∈ seen))).length

theorem unseenKeys_mono {keys s s' : List String} (h : ∀ v ∈ s, v ∈ s') :
    unseenKeys keys s' ≤ unseenKeys keys s := by
  apply length_filter_mono
  intro x hx
  simp only [decide_eq_true_eq] at hx ⊢
  exact fun hmem => hx (h x hmem)

theorem unseenKeys_cons_lt {keys : List String} {url : String} {seen : List String}
    (hu : url ∈ keys) (hs : url ∉ seen) :
    unseenKeys keys (url :: seen) < unseenKeys keys seen := by
  unfold unseenKeys
  induction keys with
  | nil => cases hu
  | cons a l ih =>
    rcases List.mem_cons.1 hu with rfl | ha
    · rw [List.filter_cons_of_neg (by simp), List.filter_cons_of_pos (by simpa using hs)]
      refine Nat.lt_succ_of_le (length_filter_mono ?_ l)
      intro x hx
      simp only [decide_eq_true_eq, List.mem_cons] at hx ⊢
      exact fun hmem => hx (Or.inr hmem)
    · by_cases hmem : a ∈ seen
      · rw [List.filter_cons_of_neg
            (by simp only [decide_eq_true_eq, not_not]; exact List.mem_cons_of_mem url hmem),
          List.filter_cons_of_neg (by simp only [decide_eq_true_eq, not_not]; exact hmem)]
        exact ih ha
      · by_cases hau : a = url
        · subst hau
          rw [List.filter_cons_of_neg (by simp), List.filter_cons_of_pos (by simpa using hmem)]
          refine Nat.lt_succ_of_le (length_filter_mono ?_ l)
          intro x hx
          simp only [decide_eq_true_eq, List.mem_cons] at hx ⊢
          exact fun hm => hx (Or.inr hm)
        · rw [List.filter_cons_of_pos (by simp [hau, hmem]),
            List.filter_cons_of_pos (by simpa using hmem)]
          exact Nat.succ_lt_succ (ih ha)

theorem unseenKeys_le_length (keys seen : List String) :
    unseenKeys keys seen ≤ keys.length :=
  List.length_filter_le _ _

/-- Everything `setDepths` preserves about the map except depths: the
key list, and each node's content other than its depth. -/
def nodeShape (n : ModuleNode) : ModuleTiming × String × List String × Option String :=
  (n.timing, n.displayName, n.children, n.parent)

theorem setDepthsF_frame :
    ∀ (fuel : Nat) (url : String) (depth : Nat) (st st' : NodeMap × List String),
      setDepthsF fuel url depth st = some st' →
      (∀ v ∈ st.2, v ∈ st'.2) ∧
      st'.1.map Prod.fst = st.1.map Prod.fst ∧
      (∀ u, (mapGet st'.1 u).map nodeShape = (mapGet st.1 u).map nodeShape) := by
  intro fuel
  induction fuel with
  | zero => intro url depth st st' h; cases h
  | succ f ih =>
    have hfold : ∀ (cs : List String) (depth : Nat) (st st' : NodeMap × List String),
        depthFold f cs depth (some st) = some st' →
        (∀ v ∈ st.2, v ∈ st'.2) ∧
        st'.1.map Prod.fst = st.1.map Prod.fst ∧
        (∀ u, (mapGet st'.1 u).map nodeShape = (mapGet st.1 u).map nodeShape) := by
      intro cs
      induction cs with
      | nil =>
        intro depth st st' h
        injection h with h
        rw [h]
        exact ⟨fun v hv => hv, rfl, fun u => rfl⟩
      | cons c cs ihc =>
        intro depth st st' h
        rw [depthFold] at h
        cases hc : setDepthsF f c depth st with
        | none =>
          rw [hc, depthFold_none] at h
          cases h
        | some st2 =>
          rw [hc] at h
          obtain ⟨h1, h2, h3⟩ := ih c depth st st2 hc
          obtain ⟨h4, h5, h6⟩ := ihc depth st2 st' h
          exact ⟨fun v hv => h4 v (h1 v hv), h5.trans h2,
            fun u => (h6 u).trans (h3 u)⟩
    intro url depth st st' h
    rw [setDepthsF_succ] at h
    by_cases hu : url ∈ st.2
    · rw [if_pos hu] at h
      injection h with h
      rw [h]
      exact ⟨fun v hv => hv, rfl, fun u => rfl⟩
    · rw [if_neg hu] at h
      cases hb : mapGet st.1 url with
      | none =>
        rw [hb] at h
        injection h with h
        rw [h]
        exact ⟨fun v hv => hv, rfl, fun u => rfl⟩
      | some node =>
        rw [hb] at h
        obtain ⟨h1, h2, h3⟩ := hfold node.children (depth + 1)
          (mapSet st.1 url { node with depth := depth }, url :: st.2) st' h
        have hbsome : (mapGet st.1 url).isSome := by rw [hb]; rfl
        refine ⟨fun v hv => h1 v (List.mem_cons_of_mem url hv),
          h2.trans (mapSet_keys_of_isSome hbsome _), fun u => (h3 u).trans ?_⟩
        rw [mapGet_mapSet]
        by_cases huu : u = url
        · rw [if_pos huu, huu, hb]
          rfl
        · rw [if_neg huu]

theorem mapGet_key_mem {nm : NodeMap} {k : String} {v : ModuleNode}
    (h : mapGet nm k = some v) : k ∈ nm.map Prod.fst :=
  List.mem_map.2 ⟨(k, v), mapGet_mem h, rfl⟩

theorem setDepthsF_isSome :
    ∀ (fuel : Nat) (url : String) (depth : Nat) (nm : NodeMap) (seen : List String),
      unseenKeys (nm.map Prod.fst) seen < fuel →
      ∃ st', setDepthsF fuel url depth (nm, seen) = some st' := by
  intro fuel
  induction fuel with
  | zero => intro url depth nm seen h; omega
  | succ f ih =>
    have hfold : ∀ (cs : List String) (depth : Nat) (st : NodeMap × List String),
        unseenKeys (st.1.map Prod.fst) st.2 < f →
        ∃ st', depthFold f cs depth (some st) = some st' := by
      intro cs
      induction cs with
      | nil => intro depth st _; exact ⟨st, rfl⟩
      | cons c cs ihc =>
        intro depth st hcnt
        obtain ⟨st2, hst2⟩ := ih c depth st.1 st.2 hcnt
        obtain ⟨hmono, hkeys, _⟩ := setDepthsF_frame f c depth (st.1, st.2) st2 hst2
        obtain ⟨st3, hst3⟩ := ihc depth st2 (by
          rw [hkeys]
          exact lt_of_le_of_lt (unseenKeys_mono hmono) hcnt)
        refine ⟨st3, ?_⟩
        rw [depthFold, hst2]
        exact hst3
    intro url depth nm seen h
    rw [setDepthsF_succ]
    by_cases hu : url ∈ seen
    · exact ⟨(nm, seen), by rw [if_pos hu]⟩
    · rw [if_neg hu]
      cases hb : mapGet nm url with
      | none => exact ⟨(nm, seen), rfl⟩
      | some node =>
        have hkey : url ∈ nm.map Prod.fst := mapGet_key_mem hb
        have hbsome : (mapGet nm url).isSome := by rw [hb]; rfl
        apply hfold
        show unseenKeys ((mapSet nm url { node with depth := depth }).map Prod.fst)
          (url :: seen) < f
        rw [mapSet_keys_of_isSome hbsome]
        have h1 := unseenKeys_cons_lt hkey hu
        omega

theorem depthPass_some (fuel : Nat) :
    ∀ (roots : List String) (nm : NodeMap),
      (nm.map Prod.fst).length < fuel →
      ∃ nm2,
        roots.foldl
          (fun acc r =>
            match acc with
            | none => none
            | some nm => (setDepthsF fuel r 0 (nm, [])).map (fun st => st.1))
          (some nm) = some nm2
        ∧ nm2.map Prod.fst = nm.map Prod.fst
        ∧ (∀ u, (mapGet nm2 u).map nodeShape = (mapGet nm u).map nodeShape) := by
  intro roots
  induction roots with
  | nil => intro nm _; exact ⟨nm, rfl, rfl, fun u => rfl⟩
  | cons r rs ih =>
    intro nm hlen
    obtain ⟨st2, hst2⟩ := setDepthsF_isSome fuel r 0 nm []
      (lt_of_le_of_lt (unseenKeys_le_length _ _) hlen)
    obtain ⟨hmono, hkeys, hshape⟩ := setDepthsF_frame fuel r 0 (nm, []) st2 hst2
    obtain ⟨nm2, hnm2, hkeys2, hshape2⟩ := ih st2.1 (by rw [hkeys]; exact hlen)
    refine ⟨nm2, ?_, hkeys2.trans hkeys, fun u => (hshape2 u).trans (hshape u)⟩
    rw [List.foldl_cons]
    simp only [hst2]
    exact hnm2

/-- Claim C6: under unique URLs, every module whose `parentUrl` is
absent or names a URL not present in the input ends up with no parent
back-reference and appears in the root list of the successfully built
tree (orphaned parents degrade to roots, with no error). -/
theorem orphan_modules_are_roots (ms : List ModuleTiming) (cwd : String) (m : ModuleTiming)
    (hnd : (ms.map (fun x => x.resolvedUrl)).Nodup) (hm : m ∈ ms)
    (horphan : m.parentUrl = none ∨ ∀ p ∈ ms, m.parentUrl ≠ some p.resolvedUrl) :
    ∃ tr, buildDependencyTree ms cwd = some tr
      ∧ (∃ node, mapGet tr.nodeMap m.resolvedUrl = some node ∧ node.parent = none)
      ∧ m.resolvedUrl ∈ tr.roots := by
  have hbn := buildNodes_get cwd hnd hm
  have ht : (mapGet (buildNodes ms cwd) m.resolvedUrl).map (fun n => n.timing) = some m := by
    rw [hbn]; rfl
  have hpn : ∀ q : String, m.parentUrl = some q → mapGet (buildNodes ms cwd) q = none := by
    intro q hq
    apply buildNodes_get_none
    intro x hx he
    rcases horphan with h | h
    · rw [h] at hq; cases hq
    · exact h x hx (by rw [hq, he])
  obtain ⟨hI, node1, hn1, hn1p⟩ := linkParents_facts ht hpn hbn rfl
  have hroot : m.resolvedUrl ∈ rootUrls (linkParents (buildNodes ms cwd)) := by
    unfold rootUrls
    apply List.mem_map.2
    refine ⟨(m.resolvedUrl, node1), ?_, rfl⟩
    apply List.mem_filter.2
    exact ⟨mapGet_mem hn1, by rw [hn1p]; rfl⟩
  obtain ⟨nm2, hfold, hkeys, hshape⟩ :=
    depthPass_some ((linkParents (buildNodes ms cwd)).length + 1)
      (rootUrls (linkParents (buildNodes ms cwd))) (linkParents (buildNodes ms cwd))
      (by rw [List.length_map]; omega)
  refine ⟨{ nodeMap := nm2.map (fun p => (p.1, sortChildren nm2 p.2)),
            roots := rootUrls (linkParents (buildNodes ms cwd)),
            sortedByTime := sortDesc (fun n => getEffectiveTime n.timing)
              ((nm2.map (fun p => (p.1, sortChildren nm2 p.2))).map (fun p => p.2)) },
    ?_, ?_, hroot⟩
  · simp only [buildDependencyTree]
    rw [hfold]
  · rw [mapGet_mapVals]
    have h2 := hshape m.resolvedUrl
    rw [hn1] at h2
    cases hm2 : mapGet nm2 m.resolvedUrl with
    | none => rw [hm2] at h2; cases h2
    | some node2 =>
      rw [hm2] at h2
      refine ⟨_, rfl, ?_⟩
      injection h2 with h2
      have hpe : node2.parent = node1.parent := congrArg (fun q => q.2.2.2) h2
      show node2.parent = none
      exact hpe.trans hn1p

/-- The orphan fixture of the tests: a parent URL naming no record. -/
def orphanMod : ModuleTiming :=
  { specifier := "orphan.ts", resolvedUrl := "file:///app/orphan.ts", loadTime := 10,
    parentUrl := some "file:///app/missing.ts" }

/-- Witness for C6: the orphan fixture ends up parentless among the
roots. -/
theorem orphan_modules_are_roots_witness :
    ∃ tr, buildDependencyTree [orphanMod] "/app" = some tr
      ∧ (∃ node, mapGet tr.nodeMap orphanMod.resolvedUrl = some node ∧ node.parent = none)
      ∧ orphanMod.resolvedUrl ∈ tr.roots :=
  orphan_modules_are_roots [orphanMod] "/app" orphanMod (by decide) (by decide)
    (Or.inr (by decide))

end Docteur
